import Mathlib

/- Shallow embedding of the HDF4 chunked-element storage engine
   (hdf/src/hchunks.c) and of the szip codec adapter (hdf/src/cszip.c).

   Modelling conventions:
   * C int32 quantities that are provably non-negative in the modelled
     paths (geometry fields, element positions, chunk numbers) are Nat;
     quantities the C code compares against 0 (user seek offsets, user
     I/O lengths) are Int.
   * Dimension arrays are Lean lists in C index order: index 0 is the
     slowest-varying axis and the last entry is the fastest-varying
     axis, exactly like ddims[0 .. ndims-1] in hchunks.c.
   * The C loops running i = ndims-1 down to 0 are embedded as
     structural recursion that processes the tail of the list first. -/

/-- DIM_REC of hchunks.c: the per-dimension geometry record (the
distrib_type / unlimited / flag bookkeeping fields play no role in the
arithmetic and are omitted). -/
structure DIM_REC where
  dim_length : Nat
  chunk_length : Nat
  num_chunks : Nat
  last_chunk_length : Nat
deriving Repr, DecidableEq

instance : Inhabited DIM_REC := ⟨⟨1, 1, 1, 1⟩⟩

/-- Derivation of num_chunks and last_chunk_length performed at create
and open time (hchunks.c, HMCcreate lines 1544-1552 and HMCIstaccess
lines 1014-1024): num_chunks = dim_length / chunk_length, incremented
when the division has a remainder, in which case last_chunk_length is
the remainder, else last_chunk_length = chunk_length. -/
def mkDimRec (dim_length chunk_length : Nat) : DIM_REC :=
  let num := dim_length / chunk_length
  if dim_length % chunk_length ≠ 0 then
    { dim_length := dim_length, chunk_length := chunk_length,
      num_chunks := num + 1, last_chunk_length := dim_length % chunk_length }
  else
    { dim_length := dim_length, chunk_length := chunk_length,
      num_chunks := num, last_chunk_length := chunk_length }

/-- A dimension record with positive extents whose derived fields are
exactly the ones HMCcreate / HMCIstaccess compute. -/
def goodDim (d : DIM_REC) : Prop :=
  0 < d.dim_length ∧ 0 < d.chunk_length ∧ d = mkDimRec d.dim_length d.chunk_length

instance (d : DIM_REC) : Decidable (goodDim d) := by
  unfold goodDim; infer_instance

/-- Product of the dim_length fields (number of elements in the
logical array; info->length in hchunks.c). -/
def prodDims : List DIM_REC → Nat
  | [] => 1
  | d :: rest => d.dim_length * prodDims rest

/-- Product of the num_chunks fields (npages in HMCIstaccess). -/
def prodNumChunks : List DIM_REC → Nat
  | [] => 1
  | d :: rest => d.num_chunks * prodNumChunks rest

/-- Product of the chunk_length fields (info->chunk_size, the logical
number of elements per chunk). -/
def prodChunkLens : List DIM_REC → Nat
  | [] => 1
  | d :: rest => d.chunk_length * prodChunkLens rest

/-- Core of update_chunk_indices_seek (hchunks.c lines 483-504): the
loop runs i = ndims-1 down to 0, so the recursion processes the tail
of the dimension list first, with the running quotient stmp threaded
through.  Returns the list of per-axis pairs
(seek_chunk_indices[i], seek_pos_chunk[i]) in C index order together
with the final quotient. -/
def goDigits : List DIM_REC → Nat → List (Nat × Nat) × Nat
  | [], stmp => ([], stmp)
  | d :: rest, stmp =>
    let pr := goDigits rest stmp
    (((pr.2 % d.dim_length) / d.chunk_length,
      (pr.2 % d.dim_length) % d.chunk_length) :: pr.1,
     pr.2 / d.dim_length)

/-- update_chunk_indices_seek (hchunks.c lines 483-504): translate a
physical seek position into per-axis chunk indices and in-chunk
positions; the physical position is first converted to a logical
element index by dividing by the number-type size. -/
def update_chunk_indices_seek (sloc nt_size : Nat) (ddims : List DIM_REC) :
    List (Nat × Nat) :=
  (goDigits ddims (sloc / nt_size)).1

/-- Per-dimension body of compute_chunk_to_array (hchunks.c lines
526-537): array_indices[j] = chunk_indices[j] * chunk_length, plus the
in-chunk position, clamped to last_chunk_length on the last chunk
along the axis. -/
def chunk_to_array_dim (d : DIM_REC) (sbi spb : Nat) : Nat :=
  sbi * d.chunk_length +
    (if sbi = d.num_chunks - 1 then
      (if spb > d.last_chunk_length then d.last_chunk_length else spb)
    else spb)

/-- compute_chunk_to_array (hchunks.c lines 517-539). -/
def compute_chunk_to_array (prs : List (Nat × Nat)) (ddims : List DIM_REC) :
    List Nat :=
  List.zipWith (fun pr d => chunk_to_array_dim d pr.1 pr.2) prs ddims

/-- Accumulation loop of compute_array_to_seek (hchunks.c lines
558-569): user_seek = sum over j of array_indices[j] times the product
of the dim_length of all faster axes. -/
def arraySeek : List Nat → List DIM_REC → Nat
  | a :: arest, _d :: drest => a * prodDims drest + arraySeek arest drest
  | _, _ => 0

/-- compute_array_to_seek (hchunks.c lines 551-574): the accumulated
logical index is scaled back to a physical position by the number-type
size. -/
def compute_array_to_seek (arr : List Nat) (nt_size : Nat)
    (ddims : List DIM_REC) : Nat :=
  arraySeek arr ddims * nt_size

/-- calculate_chunk_num (hchunks.c lines 653-672): row-major
mixed-radix encoding of the chunk coordinate against num_chunks per
axis, last axis varying fastest. -/
def calculate_chunk_num : List Nat → List DIM_REC → Nat
  | s :: srest, _d :: drest =>
    s * prodNumChunks drest + calculate_chunk_num srest drest
  | _, _ => 0

/-- Accumulation loop of calculate_seek_in_chunk (hchunks.c lines
593-604): mixed-radix encoding of the in-chunk position against
chunk_length per axis. -/
def chunkSeekAcc : List Nat → List DIM_REC → Nat
  | s :: srest, _d :: drest =>
    s * prodChunkLens drest + chunkSeekAcc srest drest
  | _, _ => 0

/-- calculate_seek_in_chunk (hchunks.c lines 586-609). -/
def calculate_seek_in_chunk (spb : List Nat) (nt_size : Nat)
    (ddims : List DIM_REC) : Nat :=
  chunkSeekAcc spb ddims * nt_size

/-- Last element of a list with an explicit default, mirroring the C
accesses sbi[ndims-1], spb[ndims-1], ddims[ndims-1]. -/
def lastOf {α : Type} (dflt : α) : List α → α
  | [] => dflt
  | [a] => a
  | _ :: b :: rest => lastOf dflt (b :: rest)

/-- calculate_chunk_for_chunk (hchunks.c lines 686-714): the number of
bytes that can be moved without leaving the current chunk along the
fastest-varying axis, capped by the bytes still to move.  Int-valued
to mirror the C int32 comparison. -/
def calculate_chunk_for_chunk (nt_size len bytes_finished : Nat)
    (sbiL spbL : Nat) (dL : DIM_REC) : Int :=
  let eff : Int :=
    if sbiL = dL.num_chunks - 1 then (dL.last_chunk_length : Int)
    else (dL.chunk_length : Int)
  if (eff - spbL) * nt_size > (len : Int) - (bytes_finished : Int) then
    (len : Int) - (bytes_finished : Int)
  else (eff - spbL) * nt_size

/-- Facts about a well-formed dimension record: extents are positive,
num_chunks and last_chunk_length are positive, the last chunk is no
longer than a regular chunk, and the chunks tile the dimension
exactly. -/
theorem goodDim_facts (d : DIM_REC) (h : goodDim d) :
    0 < d.dim_length ∧ 0 < d.chunk_length ∧ 0 < d.num_chunks ∧
    0 < d.last_chunk_length ∧ d.last_chunk_length ≤ d.chunk_length ∧
    (d.num_chunks - 1) * d.chunk_length + d.last_chunk_length = d.dim_length ∧
    d.dim_length ≤ d.num_chunks * d.chunk_length := by
  obtain ⟨dl, cl, nc, lc⟩ := d
  obtain ⟨h1, h2, h3⟩ := h
  simp only at h1 h2 ⊢
  simp only [mkDimRec] at h3
  have hmod := Nat.div_add_mod dl cl
  by_cases hr : dl % cl = 0
  · rw [if_neg (by simp [hr])] at h3
    injection h3 with e1 e2 e3 e4
    subst e3
    replace e4 := e4.symm
    subst e4
    have hdvd : cl ∣ dl := Nat.dvd_of_mod_eq_zero hr
    have hq : 0 < dl / cl := Nat.div_pos (Nat.le_of_dvd h1 hdvd) h2
    have hqm : dl / cl * cl = dl := Nat.div_mul_cancel hdvd
    have h6 : (dl / cl - 1) * cl + cl = dl := by
      have e : (dl / cl - 1) * cl + cl = (dl / cl - 1 + 1) * cl := by
        rw [Nat.succ_mul]
      rw [e, Nat.sub_add_cancel hq, hqm]
    exact ⟨h1, h2, hq, h2, Nat.le_refl cl, h6, Nat.le_of_eq hqm.symm⟩
  · rw [if_pos hr] at h3
    injection h3 with e1 e2 e3 e4
    subst e3; subst e4
    have h6 : (dl / cl + 1 - 1) * cl + dl % cl = dl := by
      rw [Nat.add_sub_cancel, Nat.mul_comm]; exact hmod
    have h7 : dl ≤ (dl / cl + 1) * cl := by
      have hlt : dl % cl < cl := Nat.mod_lt dl h2
      calc dl = cl * (dl / cl) + dl % cl := hmod.symm
        _ ≤ cl * (dl / cl) + cl := by omega
        _ = (dl / cl + 1) * cl := by rw [Nat.succ_mul, Nat.mul_comm]
    exact ⟨h1, h2, Nat.succ_pos _, Nat.pos_of_ne_zero hr,
      Nat.le_of_lt (Nat.mod_lt dl h2), h6, h7⟩

/-- Per-dimension inversion: for an in-range digit x, the clamp of
compute_chunk_to_array never fires, so the (chunk index, in-chunk
position) split recomposes to x; moreover the in-chunk position is
strictly below the effective extent of the chunk it falls in. -/
theorem digit_decomp (d : DIM_REC) (h : goodDim d) (x : Nat)
    (hx : x < d.dim_length) :
    chunk_to_array_dim d (x / d.chunk_length) (x % d.chunk_length) = x ∧
    x % d.chunk_length <
      (if x / d.chunk_length = d.num_chunks - 1 then d.last_chunk_length
       else d.chunk_length) ∧
    x / d.chunk_length < d.num_chunks := by
  obtain ⟨_h1, h2, _h3, _h4, _h5, h6, h7⟩ := goodDim_facts d h
  have hsplit := Nat.div_add_mod x d.chunk_length
  have hnum : x / d.chunk_length < d.num_chunks :=
    (Nat.div_lt_iff_lt_mul h2).mpr (Nat.lt_of_lt_of_le hx h7)
  have hbound : x % d.chunk_length <
      (if x / d.chunk_length = d.num_chunks - 1 then d.last_chunk_length
       else d.chunk_length) := by
    by_cases hc : x / d.chunk_length = d.num_chunks - 1
    · rw [if_pos hc]
      have hx2 : (d.num_chunks - 1) * d.chunk_length + x % d.chunk_length <
          (d.num_chunks - 1) * d.chunk_length + d.last_chunk_length := by
        rw [h6]
        calc (d.num_chunks - 1) * d.chunk_length + x % d.chunk_length
            = d.chunk_length * (x / d.chunk_length) + x % d.chunk_length := by
              rw [hc, Nat.mul_comm]
          _ = x := hsplit
          _ < d.dim_length := hx
      exact Nat.lt_of_add_lt_add_left hx2
    · rw [if_neg hc]
      exact Nat.mod_lt x h2
  refine ⟨?_, hbound, hnum⟩
  unfold chunk_to_array_dim
  by_cases hc : x / d.chunk_length = d.num_chunks - 1
  · rw [if_pos hc] at hbound ⊢
    rw [if_neg (by omega)]
    rw [Nat.mul_comm]
    exact hsplit
  · rw [if_neg hc]
    rw [Nat.mul_comm]
    exact hsplit

/-- Mixed-radix recomposition identity on Nat. -/
theorem mod_mul_decomp (e a b : Nat) :
    e % (a * b) = (e / b % a) * b + e % b := by
  have h1 : e % (a * b) % b = e % b :=
    Nat.mod_mod_of_dvd e ⟨a, Nat.mul_comm a b⟩
  have h2 : e % (a * b) / b = e / b % a := by
    rw [Nat.mul_comm a b]
    exact Nat.mod_mul_right_div_self e b a
  calc e % (a * b)
      = b * (e % (a * b) / b) + e % (a * b) % b :=
        (Nat.div_add_mod (e % (a * b)) b).symm
    _ = (e / b % a) * b + e % b := by rw [h1, h2, Nat.mul_comm]

/-- The quotient threaded out of goDigits is the element index divided
by the full extent product. -/
theorem goDigits_snd (ddims : List DIM_REC) (e : Nat) :
    (goDigits ddims e).2 = e / prodDims ddims := by
  induction ddims generalizing e with
  | nil => simp [goDigits, prodDims]
  | cons d rest ih =>
    show (goDigits rest e).2 / d.dim_length = e / (d.dim_length * prodDims rest)
    rw [ih, Nat.div_div_eq_div_mul, Nat.mul_comm]

/-- Round trip of the coordinate transforms at element granularity:
decomposing an element index with the update_chunk_indices_seek digit
loop and recomposing with compute_chunk_to_array and the
compute_array_to_seek accumulation returns the index reduced modulo
the total extent. -/
theorem roundtrip_mod (ddims : List DIM_REC) (h : ∀ d ∈ ddims, goodDim d)
    (e : Nat) :
    arraySeek (compute_chunk_to_array (goDigits ddims e).1 ddims) ddims =
      e % prodDims ddims := by
  induction ddims generalizing e with
  | nil => simp [goDigits, compute_chunk_to_array, arraySeek, prodDims,
      Nat.mod_one]
  | cons d rest ih =>
    have hd : goodDim d := h d (by simp)
    have hrest : ∀ x ∈ rest, goodDim x := fun x hx => h x (by simp [hx])
    have hpos : 0 < d.dim_length := (goodDim_facts d hd).1
    have hxlt : (goDigits rest e).2 % d.dim_length < d.dim_length :=
      Nat.mod_lt _ hpos
    have hdig := digit_decomp d hd ((goDigits rest e).2 % d.dim_length) hxlt
    show arraySeek (compute_chunk_to_array
        ((((goDigits rest e).2 % d.dim_length) / d.chunk_length,
          ((goDigits rest e).2 % d.dim_length) % d.chunk_length)
            :: (goDigits rest e).1) (d :: rest)) (d :: rest) =
      e % (d.dim_length * prodDims rest)
    show chunk_to_array_dim d
        (((goDigits rest e).2 % d.dim_length) / d.chunk_length)
        (((goDigits rest e).2 % d.dim_length) % d.chunk_length) * prodDims rest +
      arraySeek (compute_chunk_to_array (goDigits rest e).1 rest) rest =
      e % (d.dim_length * prodDims rest)
    rw [hdig.1, ih hrest, goDigits_snd,
      mod_mul_decomp e d.dim_length (prodDims rest)]

/-- C1 counterexample: with the valid 1-D geometry dim_length = 2,
chunk_length = 1 and number-type size 2 (logical_size = 4 bytes), the
in-range byte offset 1 decomposes via update_chunk_indices_seek and
recomposes via compute_chunk_to_array / compute_array_to_seek to 0,
not 1: the transforms are not inverses on byte offsets that are not a
multiple of the number-type size. -/
theorem coordinate_roundtrip_counterexample :
    goodDim (mkDimRec 2 1) ∧ (1 : Nat) < prodDims [mkDimRec 2 1] * 2 ∧
    compute_array_to_seek (compute_chunk_to_array
        (update_chunk_indices_seek 1 2 [mkDimRec 2 1]) [mkDimRec 2 1])
      2 [mkDimRec 2 1] = 0 := by decide

/-- C1 (amended): for every byte offset x in [0, logical_size) that is
a multiple of the number-type size, decomposing x with
update_chunk_indices_seek and recomposing with compute_chunk_to_array
followed by compute_array_to_seek yields x again, for every valid
geometry (positive extents, derived fields as computed at create
time), including on the boundary last chunk along every axis. -/
theorem coordinate_transform_roundtrip
    (ddims : List DIM_REC) (nt_size x : Nat)
    (hdims : ∀ d ∈ ddims, goodDim d) (hnt : 0 < nt_size)
    (hal : nt_size ∣ x) (hx : x < prodDims ddims * nt_size) :
    compute_array_to_seek (compute_chunk_to_array
        (update_chunk_indices_seek x nt_size ddims) ddims) nt_size ddims
      = x := by
  obtain ⟨e, rfl⟩ := hal
  have he : nt_size * e / nt_size = e := Nat.mul_div_cancel_left e hnt
  have hel : e < prodDims ddims := by
    rcases Nat.lt_or_ge e (prodDims ddims) with hlt | hge
    · exact hlt
    · exfalso
      have hle : nt_size * prodDims ddims ≤ nt_size * e :=
        Nat.mul_le_mul_left nt_size hge
      have hc : nt_size * prodDims ddims = prodDims ddims * nt_size :=
        Nat.mul_comm nt_size (prodDims ddims)
      omega
  unfold update_chunk_indices_seek compute_array_to_seek
  rw [he, roundtrip_mod ddims hdims e, Nat.mod_eq_of_lt hel, Nat.mul_comm]

/-- Witness for the amended C1 theorem at a concrete input: geometry
dim_length = [10,10], chunk_length = [4,4], nt_size 4, byte offset 44
(element index 11, inside the boundary chunk column). -/
theorem coordinate_transform_roundtrip_witness :
    compute_array_to_seek (compute_chunk_to_array
        (update_chunk_indices_seek 44 4 [mkDimRec 10 4, mkDimRec 10 4])
        [mkDimRec 10 4, mkDimRec 10 4]) 4 [mkDimRec 10 4, mkDimRec 10 4]
      = 44 :=
  coordinate_transform_roundtrip [mkDimRec 10 4, mkDimRec 10 4] 4 44
    (by decide) (by decide) (by decide) (by decide)

/-- A chunk coordinate with one component per dimension, each strictly
below that dimension's num_chunks (the domain of the chunk-number
encoding in calculate_chunk_num). -/
def validCoord : List Nat → List DIM_REC → Prop
  | [], [] => True
  | s :: srest, _d :: drest => s < (_d).num_chunks ∧ validCoord srest drest
  | _, _ => False

instance instDecidableValidCoord :
    ∀ (s : List Nat) (ds : List DIM_REC), Decidable (validCoord s ds)
  | [], [] => isTrue trivial
  | [], _ :: _ => isFalse id
  | _ :: _, [] => isFalse id
  | s :: srest, d :: drest =>
    have : Decidable (validCoord srest drest) :=
      instDecidableValidCoord srest drest
    inferInstanceAs (Decidable (s < d.num_chunks ∧ validCoord srest drest))

/-- A valid coordinate forces every radix on its suffix to be positive. -/
theorem validCoord_prod_pos :
    ∀ (s : List Nat) (ds : List DIM_REC), validCoord s ds →
      0 < prodNumChunks ds
  | [], [], _ => Nat.one_pos
  | _s :: srest, d :: drest, h =>
    Nat.mul_pos (Nat.lt_of_le_of_lt (Nat.zero_le _) h.1)
      (validCoord_prod_pos srest drest h.2)
  | [], _ :: _, h => h.elim
  | _ :: _, [], h => h.elim

/-- The chunk-number encoding of a valid coordinate lies below the
product of the num_chunks radices. -/
theorem calculate_chunk_num_lt :
    ∀ (s : List Nat) (ds : List DIM_REC), validCoord s ds →
      calculate_chunk_num s ds < prodNumChunks ds
  | [], [], _ => Nat.one_pos
  | a :: srest, d :: drest, h => by
    have ih := calculate_chunk_num_lt srest drest h.2
    show a * prodNumChunks drest + calculate_chunk_num srest drest <
      d.num_chunks * prodNumChunks drest
    calc a * prodNumChunks drest + calculate_chunk_num srest drest
        < a * prodNumChunks drest + prodNumChunks drest :=
          Nat.add_lt_add_left ih _
      _ = (a + 1) * prodNumChunks drest := (Nat.succ_mul a _).symm
      _ ≤ d.num_chunks * prodNumChunks drest :=
          Nat.mul_le_mul_right _ h.1
  | [], _ :: _, h => h.elim
  | _ :: _, [], h => h.elim

/-- The chunk-number encoding is injective on valid coordinates. -/
theorem calculate_chunk_num_inj (ds : List DIM_REC) :
    ∀ s1 s2, validCoord s1 ds → validCoord s2 ds →
      calculate_chunk_num s1 ds = calculate_chunk_num s2 ds → s1 = s2 := by
  induction ds with
  | nil =>
    intro s1 s2 h1 h2 _
    cases s1 with
    | nil => cases s2 with
      | nil => rfl
      | cons b t2 => exact h2.elim
    | cons a t1 => exact h1.elim
  | cons d drest ih =>
    intro s1 s2 h1 h2 heq
    cases s1 with
    | nil => exact h1.elim
    | cons a t1 =>
      cases s2 with
      | nil => exact h2.elim
      | cons b t2 =>
        obtain ⟨ha, h1t⟩ := h1
        obtain ⟨hb, h2t⟩ := h2
        have hP := validCoord_prod_pos t1 drest h1t
        have hv1 := calculate_chunk_num_lt t1 drest h1t
        have hv2 := calculate_chunk_num_lt t2 drest h2t
        have heq2 : a * prodNumChunks drest + calculate_chunk_num t1 drest =
            b * prodNumChunks drest + calculate_chunk_num t2 drest := heq
        have hdiv : ∀ (k v : Nat), v < prodNumChunks drest →
            (k * prodNumChunks drest + v) / prodNumChunks drest = k := by
          intro k v hv
          rw [Nat.mul_comm, Nat.mul_add_div hP, Nat.div_eq_of_lt hv,
            Nat.add_zero]
        have hab : a = b := by
          have := congrArg (fun n => n / prodNumChunks drest) heq2
          simpa [hdiv a _ hv1, hdiv b _ hv2] using this
        subst hab
        have hval : calculate_chunk_num t1 drest =
            calculate_chunk_num t2 drest := by omega
        rw [ih t1 t2 h1t h2t hval]

/-- Decoding of a chunk number back to a coordinate (the mathematical
inverse used to establish surjectivity of calculate_chunk_num). -/
def chunkNumDecode : Nat → List DIM_REC → List Nat
  | _, [] => []
  | n, _d :: drest =>
    n / prodNumChunks drest :: chunkNumDecode (n % prodNumChunks drest) drest

/-- Every number below the radix product is the encoding of the valid
coordinate produced by chunkNumDecode. -/
theorem chunkNumDecode_spec (ds : List DIM_REC) :
    ∀ n, n < prodNumChunks ds →
      validCoord (chunkNumDecode n ds) ds ∧
        calculate_chunk_num (chunkNumDecode n ds) ds = n := by
  induction ds with
  | nil =>
    intro n hn
    have : n = 0 := Nat.lt_one_iff.mp hn
    subst this
    exact ⟨trivial, rfl⟩
  | cons d drest ih =>
    intro n hn
    have hP : 0 < prodNumChunks drest := by
      rcases Nat.eq_zero_or_pos (prodNumChunks drest) with h0 | hpos
      · exfalso
        have : prodNumChunks (d :: drest) = 0 := by
          show d.num_chunks * prodNumChunks drest = 0
          rw [h0, Nat.mul_zero]
        omega
      · exact hpos
    have hdig : n / prodNumChunks drest < d.num_chunks :=
      (Nat.div_lt_iff_lt_mul hP).mpr hn
    obtain ⟨hv, he⟩ := ih (n % prodNumChunks drest) (Nat.mod_lt n hP)
    refine ⟨⟨hdig, hv⟩, ?_⟩
    show n / prodNumChunks drest * prodNumChunks drest +
      calculate_chunk_num (chunkNumDecode (n % prodNumChunks drest) drest)
        drest = n
    rw [he]
    exact Nat.div_add_mod' n (prodNumChunks drest)

/-- C2: for every geometry with at least one dimension and at least
one chunk per axis, calculate_chunk_num is injective on coordinates
with each component in [0, num_chunks[i]) and its image is exactly the
interval [0, product of num_chunks[i]). -/
theorem calculate_chunk_num_bijection (ds : List DIM_REC) (hne : ds ≠ [])
    (hnc : ∀ d ∈ ds, 1 ≤ d.num_chunks) :
    (∀ s1 s2, validCoord s1 ds → validCoord s2 ds →
        calculate_chunk_num s1 ds = calculate_chunk_num s2 ds → s1 = s2) ∧
    (∀ s, validCoord s ds → calculate_chunk_num s ds < prodNumChunks ds) ∧
    (∀ n, n < prodNumChunks ds →
        ∃ s, validCoord s ds ∧ calculate_chunk_num s ds = n) :=
  ⟨calculate_chunk_num_inj ds,
   fun s => calculate_chunk_num_lt s ds,
   fun n hn => ⟨chunkNumDecode n ds, chunkNumDecode_spec ds n hn⟩⟩

/-- Witness for C2 at the concrete geometry of scenario A: the chunk
number 8 is hit by a valid coordinate (surjectivity instance). -/
theorem calculate_chunk_num_bijection_witness :
    ∃ s, validCoord s [mkDimRec 10 4, mkDimRec 10 4] ∧
      calculate_chunk_num s [mkDimRec 10 4, mkDimRec 10 4] = 8 :=
  (calculate_chunk_num_bijection [mkDimRec 10 4, mkDimRec 10 4]
    (by decide) (by decide)).2.2 8 (by decide)

/-- C3: the derived geometry satisfies num_chunks = ceil(dim_length /
chunk_length) (written (dim_length + chunk_length - 1) / chunk_length)
and last_chunk_length = dim_length mod chunk_length when the division
is inexact, else chunk_length; and in the concrete 2-D scenario with
dim_length [10,10], chunk_length [4,4]: num_chunks = 3 and
last_chunk_length = 2 per axis, the byte at element coordinate (9,9)
(element offset 99, nt_size 1) decomposes to chunk coordinate (2,2)
with in-chunk position (1,1), and (2,2) encodes to chunk number 8. -/
theorem chunk_geometry_derivation :
    (∀ dl cl : Nat, 0 < dl → 0 < cl →
        (mkDimRec dl cl).num_chunks = (dl + cl - 1) / cl ∧
        (mkDimRec dl cl).last_chunk_length =
          (if dl % cl = 0 then cl else dl % cl)) ∧
    (mkDimRec 10 4).num_chunks = 3 ∧
    (mkDimRec 10 4).last_chunk_length = 2 ∧
    update_chunk_indices_seek 99 1 [mkDimRec 10 4, mkDimRec 10 4] =
      [(2, 1), (2, 1)] ∧
    calculate_chunk_num [2, 2] [mkDimRec 10 4, mkDimRec 10 4] = 8 := by
  refine ⟨?_, by decide, by decide, by decide, by decide⟩
  intro dl cl hdl hcl
  have hmod := Nat.div_add_mod dl cl
  by_cases hr : dl % cl = 0
  · have hdvd : cl ∣ dl := Nat.dvd_of_mod_eq_zero hr
    obtain ⟨q, rfl⟩ := hdvd
    have hq1 : cl * q / cl = q := Nat.mul_div_cancel_left q hcl
    constructor
    · show (mkDimRec (cl * q) cl).num_chunks = (cl * q + cl - 1) / cl
      rw [mkDimRec, if_neg (by simp [hr])]
      show cl * q / cl = (cl * q + cl - 1) / cl
      rw [hq1, Nat.add_sub_assoc hcl, Nat.mul_add_div hcl,
        Nat.div_eq_of_lt (by omega), Nat.add_zero]
    · rw [mkDimRec, if_neg (by simp [hr]), if_pos hr]
  · obtain ⟨q, r, hqr, hrlt⟩ : ∃ q r, dl = cl * q + r ∧ r < cl :=
      ⟨dl / cl, dl % cl, (Nat.div_add_mod dl cl).symm, Nat.mod_lt dl hcl⟩
    subst hqr
    have hq : (cl * q + r) / cl = q := by
      rw [Nat.mul_add_div hcl, Nat.div_eq_of_lt hrlt, Nat.add_zero]
    have hm : (cl * q + r) % cl = r := by
      rw [Nat.mul_add_mod, Nat.mod_eq_of_lt hrlt]
    rw [hm] at hr
    have hcond : (cl * q + r) % cl ≠ 0 := by rw [hm]; exact hr
    constructor
    · show (mkDimRec (cl * q + r) cl).num_chunks = (cl * q + r + cl - 1) / cl
      rw [mkDimRec, if_pos hcond]
      show (cl * q + r) / cl + 1 = (cl * q + r + cl - 1) / cl
      rw [hq]
      have e2 : cl * q + r + cl - 1 = cl * (q + 1) + (r - 1) := by
        have e1 : cl * (q + 1) = cl * q + cl := Nat.mul_succ cl q
        omega
      rw [e2, Nat.mul_add_div hcl, Nat.div_eq_of_lt (by omega), Nat.add_zero]
    · rw [mkDimRec, if_pos hcond, hm, if_neg hr]

/-- CHUNK_REC of hchunks.c (lines 299-310): one record per chunk held
in the TBBT directory tree. -/
structure CHUNK_REC where
  origin : List Nat
  chk_tag : Nat
  chk_ref : Nat
  chk_vnum : Nat
  chunk_number : Nat
deriving Repr, DecidableEq

/-- DFTAG_NULL: the no-data placeholder tag (value 0 in the HDF tag
space; the header defining it is not part of the sources here, but
hchunks.c only relies on it being distinct from DFTAG_CHUNK). -/
def DFTAG_NULL : Nat := 0

/-- Modelled from the spec: DFTAG_CHUNK, the tag of a chunk element
(its numeric value, 61 in HDF4, comes from a header that is not under
the sources here; hchunks.c only relies on it being nonzero, distinct
from DFTAG_NULL, and a base tag). -/
def DFTAG_CHUNK : Nat := 61

/-- BASETAG from hfile.h line 527: clears the special bit of a
non-extended tag. -/
def BASETAG (t : Nat) : Nat :=
  if t &&& 0x8000 = 0 then t &&& 0xBFFF else t

/-- Repetition of a byte pattern, used to model fill-value tiling. -/
def tile (src : List Nat) : Nat → List Nat
  | 0 => []
  | n + 1 => src ++ tile src n

theorem tile_length (src : List Nat) (n : Nat) :
    (tile src n).length = n * src.length := by
  induction n with
  | zero => simp [tile]
  | succ k ih =>
    show (src ++ tile src k).length = (k + 1) * src.length
    rw [List.length_append, ih, Nat.succ_mul, Nat.add_comm]

/-- Modelled from the spec: HDmemfill (defined in hkit.c, which is not
under the sources here) writes num_items contiguous copies of the
fill pattern into the destination buffer; bytes past the tiled region
keep their previous contents. -/
def HDmemfill (dest src : List Nat) (nitems : Nat) : List Nat :=
  tile src nitems ++ dest.drop (nitems * src.length)

/-- The slice of chunkinfo_t (hchunks.c lines 315-350) that the
page-in path HMCPchunkread consults. -/
structure ChunkInfoR where
  chunk_size : Nat
  nt_size : Nat
  fill_val : List Nat
deriving Repr, DecidableEq

/-- HMCPchunkread (hchunks.c lines 2559-2645), the page-in callback of
the chunk cache.  The in-memory directory is an association list from
chunk number to CHUNK_REC (the TBBT keyed by chunk number); the Object
Store is a partial map from (tag, ref) to element bytes.  Returns
(page buffer contents, bytes_read, number of Object Store chunk
reads); none models FAIL.  When the chunk number has no directory
entry, or its entry still has the DFTAG_NULL placeholder tag, the page
is filled with nitems = (chunk_size * nt_size) / fill_val_len copies
of the fill value via HDmemfill and no store read happens. -/
def HMCPchunkread (info : ChunkInfoR) (dir : List (Nat × CHUNK_REC))
    (store : Nat → Nat → Option (List Nat)) (chunk_num : Nat)
    (datap : List Nat) : Option (List Nat × Nat × Nat) :=
  let read_len := info.chunk_size * info.nt_size
  let nitems := read_len / info.fill_val.length
  match List.lookup chunk_num dir with
  | none => some (HDmemfill datap info.fill_val nitems, 0, 0)
  | some chk_rec =>
    if chk_rec.chk_tag ≠ DFTAG_NULL ∧ BASETAG chk_rec.chk_tag = DFTAG_CHUNK then
      match store chk_rec.chk_tag chk_rec.chk_ref with
      | none => none
      | some data => some (data.take read_len ++ datap.drop read_len, read_len, 1)
    else if chk_rec.chk_tag = DFTAG_NULL then
      some (HDmemfill datap info.fill_val nitems, 0, 0)
    else none

/-- C4: reading a chunk whose chunk number has no directory entry
returns the fill-value pattern repeated (chunk_size * nt_size) /
fill_val_len times and performs no Object Store read (third component
0), for any store contents. -/
theorem chunkread_unwritten_fill (info : ChunkInfoR)
    (dir : List (Nat × CHUNK_REC)) (store : Nat → Nat → Option (List Nat))
    (chunk_num : Nat) (datap : List Nat)
    (hnone : List.lookup chunk_num dir = none)
    (hdvd : info.fill_val.length ∣ info.chunk_size * info.nt_size)
    (hlen : datap.length = info.chunk_size * info.nt_size) :
    HMCPchunkread info dir store chunk_num datap =
      some (tile info.fill_val
        ((info.chunk_size * info.nt_size) / info.fill_val.length), 0, 0) := by
  simp only [HMCPchunkread, HDmemfill, hnone]
  rw [Nat.div_mul_cancel hdvd, ← hlen, List.drop_length, List.append_nil]

/-- Witness for C4 at scenario B: 4 zero fill bytes, chunk_size 16
elements of 4 bytes; reading unallocated chunk 0 yields 64 zero bytes
with zero store reads. -/
theorem chunkread_unwritten_fill_witness :
    HMCPchunkread ⟨16, 4, [0, 0, 0, 0]⟩ [] (fun _ _ => none) 0
        (List.replicate 64 7) = some (List.replicate 64 0, 0, 0) := by
  have h := chunkread_unwritten_fill ⟨16, 4, [0, 0, 0, 0]⟩ []
    (fun _ _ => none) 0 (List.replicate 64 7) (by rfl) (by decide) (by decide)
  exact h.trans (by decide)

/-- Witness for the universally quantified part of C3 at dl = 10,
cl = 4. -/
theorem chunk_geometry_derivation_witness :
    (mkDimRec 10 4).num_chunks = (10 + 4 - 1) / 4 ∧
    (mkDimRec 10 4).last_chunk_length = (if 10 % 4 = 0 then 4 else 10 % 4) :=
  chunk_geometry_derivation.1 10 4 (by decide) (by decide)

/-- Modelled from the spec: the INT32ENCODE macro (hdfi.h, not under
the sources here) serialises a 32-bit value as 4 big-endian bytes, as
fixed by the on-disk header layout of the spec. -/
def INT32ENCODE (n : Nat) : List Nat :=
  [n / 2 ^ 24 % 256, n / 2 ^ 16 % 256, n / 2 ^ 8 % 256, n % 256]

/-- Modelled from the spec: the INT32DECODE macro, inverse of
INT32ENCODE on the first 4 bytes. -/
def INT32DECODE (bs : List Nat) : Nat :=
  match bs with
  | b0 :: b1 :: b2 :: b3 :: _ =>
    b0 * 2 ^ 24 + b1 * 2 ^ 16 + b2 * 2 ^ 8 + b3
  | _ => 0

/-- Outcome of SZ_BufftoBuffCompress as seen by HCIcszip_term: success
with the compressed bytes, the internal-buffer overflow status
SZ_OUTBUF_FULL (status 2), or any other failure. -/
inductive SZResult where
  | ok (out : List Nat)
  | outbufFull
  | err
deriving Repr, DecidableEq

/-- HCIcszip_term (cszip.c lines 415-599), the flush of a dirty szip
chunk buffer, modelled from the SZIP_RUN + dirty state onward.  raw is
the buffered uncompressed data (buffer_pos bytes), pixel_bytes is
pixels * bytes_per_pixel, current_size the existing stored length, cr
the compressor outcome, junk the unspecified malloc contents used to
pad the shrink case.  Returns none for FAIL, or some w where w is the
byte string passed to Hwrite (none when the routine returns SUCCEED
without writing anything):
  * on SZ_OUTBUF_FULL (cszip.c lines 503-519) the code fills out_buffer
    with sentinel 1, the 4-byte raw length and the raw bytes, but then
    frees out_buffer and returns SUCCEED without calling Hwrite;
  * on success with size_out > pixel_bytes (lines 536-552) it writes
    sentinel 1, the 4-byte raw length, then the raw bytes;
  * on success with a shrink against current_size (lines 554-575) it
    writes sentinel 0, the 4-byte compressed length, the compressed
    bytes, padded to current_size;
  * otherwise (lines 577-591) it writes sentinel 0, the 4-byte
    compressed length and the compressed bytes. -/
def HCIcszip_term (raw : List Nat) (pixel_bytes : Nat) (current_size : Int)
    (cr : SZResult) (junk : List Nat) : Option (Option (List Nat)) :=
  match cr with
  | SZResult.outbufFull => some none
  | SZResult.err => none
  | SZResult.ok out =>
    if (out.length : Int) > (pixel_bytes : Int) then
      some (some (1 :: (INT32ENCODE raw.length ++ raw)))
    else if 0 < current_size ∧ (out.length : Int) + 5 < current_size then
      some (some ((0 :: (INT32ENCODE out.length ++ out)) ++
        junk.take (current_size.toNat - (out.length + 5))))
    else
      some (some (0 :: (INT32ENCODE out.length ++ out)))

/-- HCIcszip_decode (cszip.c lines 129-327) on a freshly loaded
element (szip_state = SZIP_INIT, V4.2r1 layout): stored is the full
stored byte string (sentinel, 4-byte good_bytes field, payload),
length the number of bytes requested into the caller buffer, decomp
the szlib decompressor.  When the sentinel byte is 1 the payload is
copied out uncompressed (lines 241-268): the caller receives
min(length, good_bytes) bytes of the payload. -/
def HCIcszip_decode (stored : List Nat) (length : Nat)
    (decomp : List Nat → Option (List Nat)) : Option (List Nat) :=
  match stored with
  | [] => none
  | b :: rest =>
    let good_bytes := INT32DECODE rest
    let payload := rest.drop 4
    if b = 1 then
      some ((payload.take good_bytes).take length)
    else
      match decomp (payload.take good_bytes) with
      | some out => some (out.take length)
      | none => none

/-- C6 (code bug evidence): on the SZ_OUTBUF_FULL path HCIcszip_term
returns SUCCEED (some _) yet writes nothing at all (the prepared
sentinel-1 buffer is freed before any Hwrite), so the raw-sentinel
stored form the claim describes never reaches storage; by contrast the
compressed-larger-than-raw path does store sentinel 1, the 4-byte raw
length and the raw bytes, and decoding that stored form reproduces the
original bytes exactly. -/
theorem cszip_overflow_writes_nothing :
    HCIcszip_term [7, 7, 7] 3 0 SZResult.outbufFull [] = some none ∧
    HCIcszip_term [7, 7, 7] 3 0 (SZResult.ok [9, 9, 9, 9]) [] =
      some (some (1 :: (INT32ENCODE 3 ++ [7, 7, 7]))) ∧
    HCIcszip_decode (1 :: (INT32ENCODE 3 ++ [7, 7, 7])) 3 (fun _ => none) =
      some [7, 7, 7] := by decide

/-- The three seek origins of Hseek / HMCPseek (hdf.h DF_START,
DF_CURRENT, DF_END). -/
inductive SeekOrigin where
  | DF_START
  | DF_CURRENT
  | DF_END
deriving Repr, DecidableEq

/-- Resolution of a seek offset against its origin (hchunks.c lines
2522-2527): DF_CURRENT adds the current position, DF_END adds
info->length * info->nt_size, DF_START leaves it unchanged. -/
def resolvedSeekOffset (posn : Nat) (end_bytes : Nat) (offset : Int)
    (origin : SeekOrigin) : Int :=
  match origin with
  | SeekOrigin.DF_START => offset
  | SeekOrigin.DF_CURRENT => offset + (posn : Int)
  | SeekOrigin.DF_END => offset + (end_bytes : Int)

/-- HMCPseek (hchunks.c lines 2503-2542): resolve the origin, fail on
a negative resolved offset (DFE_RANGE) leaving the position state
untouched, otherwise recompute the per-axis chunk indices and in-chunk
positions from the resolved offset and store it as the new position.
Returns the new (posn, seek indices) pair, none on FAIL. -/
def HMCPseek (ddims : List DIM_REC) (nt_size len_elts posn : Nat)
    (offset : Int) (origin : SeekOrigin) :
    Option (Nat × List (Nat × Nat)) :=
  let off2 := resolvedSeekOffset posn (len_elts * nt_size) offset origin
  if off2 < 0 then none
  else some (off2.toNat, update_chunk_indices_seek off2.toNat nt_size ddims)

/-- C9: HMCPseek resolves the origin to an absolute byte offset, fails
exactly when that resolved offset is negative (with no state change,
modelled by the none result), and otherwise succeeds for every
resolved offset - with no upper bound - recomputing the chunk indices
and in-chunk positions from the resolved offset. -/
theorem hmcpseek_semantics (ddims : List DIM_REC)
    (nt_size len_elts posn : Nat) (offset : Int) (origin : SeekOrigin) :
    (HMCPseek ddims nt_size len_elts posn offset origin = none ↔
      resolvedSeekOffset posn (len_elts * nt_size) offset origin < 0) ∧
    (0 ≤ resolvedSeekOffset posn (len_elts * nt_size) offset origin →
      HMCPseek ddims nt_size len_elts posn offset origin =
        some ((resolvedSeekOffset posn (len_elts * nt_size) offset
            origin).toNat,
          update_chunk_indices_seek (resolvedSeekOffset posn
            (len_elts * nt_size) offset origin).toNat nt_size ddims)) := by
  constructor
  · unfold HMCPseek
    by_cases hneg : resolvedSeekOffset posn (len_elts * nt_size) offset
        origin < 0
    · rw [if_pos hneg]
      simp [hneg]
    · rw [if_neg hneg]
      simp [hneg]
  · intro hge
    unfold HMCPseek
    rw [if_neg (by omega)]

/-- Witness for C9: seeking 5 bytes past the logical end (DF_END) of a
1-D element of 4 elements of 1 byte succeeds (no upper bound) and
lands on byte 9. -/
theorem hmcpseek_semantics_witness :
    HMCPseek [mkDimRec 4 2] 1 4 0 5 SeekOrigin.DF_END =
      some (9, update_chunk_indices_seek 9 1 [mkDimRec 4 2]) :=
  (hmcpseek_semantics [mkDimRec 4 2] 1 4 0 5 SeekOrigin.DF_END).2
    (by decide)

/-- Abstract events recording the side effects of the write paths, in
program order: in-memory TBBT insertion (tbbtdins), cache get/put
(mcache_get / mcache_put, put carries the dirty flag), ref allocation
(Htagnewref), chunk-table record append (VSwrite on the Vdata), and
the Object Store write of chunk bytes (HCcreate/Hstartwrite+Hwrite). -/
inductive Ev where
  | treeInsert (cn : Nat)
  | cacheGet (pgno : Nat)
  | cachePut (dirty : Bool)
  | refAlloc (tag : Nat)
  | vsAppendRec
  | storeWrite (tag ref : Nat)
deriving Repr, DecidableEq

/-- Mutable state of one open chunked-element handle as touched by the
stream-write path: the in-memory directory (association list keyed by
chunk number, standing for the TBBT), the running Vdata record count
num_recs, the element position, the cache contents per chunk number,
and the trace of emitted events. -/
structure WriteState where
  dir : List (Nat × CHUNK_REC)
  num_recs : Nat
  posn : Nat
  cache : Nat → List Nat
  events : List Ev

/-- The create-a-new-chunk-record block shared by HMCPwrite (hchunks.c
lines 3259-3294) and HMCwriteChunk (lines 3093-3129): when the chunk
number is not in the tree, insert a record with placeholder tag
DFTAG_NULL and ref 0, vnum = num_recs++, keyed by the chunk number. -/
def write_dir_insert (dir : List (Nat × CHUNK_REC)) (num_recs cn : Nat)
    (origin : List Nat) : List (Nat × CHUNK_REC) × Nat × List Ev :=
  match List.lookup cn dir with
  | some _ => (dir, num_recs, [])
  | none =>
    ((cn, { origin := origin, chk_tag := DFTAG_NULL, chk_ref := 0,
            chk_vnum := num_recs, chunk_number := cn }) :: dir,
     num_recs + 1, [Ev.treeInsert cn])

/-- In-place overwrite of a byte range of a page buffer (the memcpy
into chk_dptr + write_seek). -/
def listSplice (buf : List Nat) (off : Nat) (piece : List Nat) : List Nat :=
  buf.take off ++ piece ++ buf.drop (off + piece.length)

/-- One iteration of the HMCPwrite loop (hchunks.c lines 3249-3339):
recompute the seek arrays from the current position, compute the chunk
number and the contiguous run size, lazily insert a placeholder
directory record, get the page from the cache, splice the run into it
at the in-chunk seek position, put the page back dirty, and advance.
Returns the new state and the run size. -/
def hmcpwrite_step (ddims : List DIM_REC) (nt_size : Nat) (st : WriteState)
    (bptr : List Nat) (write_len bytes_written : Nat) : WriteState × Nat :=
  let prs := update_chunk_indices_seek st.posn nt_size ddims
  let chunk_num := calculate_chunk_num (prs.map Prod.fst) ddims
  let cs := (calculate_chunk_for_chunk nt_size write_len bytes_written
    (lastOf (0, 0) prs).1 (lastOf (0, 0) prs).2 (lastOf default ddims)).toNat
  let ins := write_dir_insert st.dir st.num_recs chunk_num (prs.map Prod.fst)
  let write_seek := calculate_seek_in_chunk (prs.map Prod.snd) nt_size ddims
  let newbuf := listSplice (st.cache chunk_num) write_seek (bptr.take cs)
  ({ dir := ins.1, num_recs := ins.2.1, posn := st.posn + cs,
     cache := fun m => if m = chunk_num then newbuf else st.cache m,
     events := st.events ++ ins.2.2 ++
       [Ev.cacheGet (chunk_num + 1), Ev.cachePut true] }, cs)

/-- The while loop of HMCPwrite, with fuel making the recursion
structural; none models a run of the loop that fails to terminate
within the fuel (the C loop would spin without progress there). -/
def hmcpwrite_loop (ddims : List DIM_REC) (nt_size : Nat) :
    Nat → WriteState → List Nat → Nat → Nat → Option (WriteState × Nat)
  | 0, st, _bptr, write_len, bytes_written =>
    if bytes_written < write_len then none else some (st, bytes_written)
  | fuel + 1, st, bptr, write_len, bytes_written =>
    if bytes_written < write_len then
      let sr := hmcpwrite_step ddims nt_size st bptr write_len bytes_written
      hmcpwrite_loop ddims nt_size fuel sr.1 (bptr.drop sr.2) write_len
        (bytes_written + sr.2)
    else some (st, bytes_written)

/-- HMCPwrite (hchunks.c lines 3205-3357): a requested length <= 0
fails with DFE_RANGE before any state is read or modified; otherwise
the loop transfers the requested bytes.  Returns the final state and
the byte count, none on FAIL. -/
def HMCPwrite (ddims : List DIM_REC) (nt_size : Nat) (st : WriteState)
    (length : Int) (datap : List Nat) : Option (WriteState × Nat) :=
  if length ≤ 0 then none
  else hmcpwrite_loop ddims nt_size length.toNat st datap length.toNat 0

/-- HMCPchunkwrite (hchunks.c lines 2900-3016), the page-out callback:
look the chunk number up in the tree (FAIL if absent); if the record
still has the DFTAG_NULL placeholder, allocate a fresh ref from the
Object Store ref facility (Htagnewref; newref = 0 means the ref space
is exhausted, a fatal DFE_NOREF), update the record to
(DFTAG_CHUNK, newref), append the record to the chunk-table Vdata
(VSwrite), and create/open the chunk element and write write_len
bytes; if the record was already allocated, just open and write.
Returns the updated directory, the event trace of this call, and the
bytes written. -/
def HMCPchunkwrite (dir : List (Nat × CHUNK_REC)) (newref cn write_len : Nat) :
    Option (List (Nat × CHUNK_REC) × List Ev × Nat) :=
  match List.lookup cn dir with
  | none => none
  | some chk_rec =>
    if chk_rec.chk_tag = DFTAG_NULL then
      if newref = 0 then none
      else
        let rec2 : CHUNK_REC :=
          { chk_rec with chk_tag := DFTAG_CHUNK, chk_ref := newref }
        some (dir.map (fun p => if p.1 = cn then (cn, rec2) else p),
              [Ev.refAlloc DFTAG_CHUNK, Ev.vsAppendRec,
               Ev.storeWrite DFTAG_CHUNK newref], write_len)
    else
      some (dir, [Ev.storeWrite chk_rec.chk_tag chk_rec.chk_ref], write_len)

/-- C10: a stream write of length <= 0 - including exactly 0 - fails
with DFE_RANGE (hchunks.c lines 3237-3238) and transfers nothing; the
failure happens before the position, directory or cache are touched
(the model returns none without consuming the state). -/
theorem hmcpwrite_rejects_nonpositive (ddims : List DIM_REC)
    (nt_size : Nat) (st : WriteState) (length : Int) (datap : List Nat)
    (h : length ≤ 0) :
    HMCPwrite ddims nt_size st length datap = none := by
  unfold HMCPwrite
  rw [if_pos h]

/-- Witness for C10 at length exactly 0. -/
theorem hmcpwrite_rejects_nonpositive_witness :
    HMCPwrite [mkDimRec 4 2] 1
      ⟨[], 0, 0, fun _ => [0, 0], []⟩ 0 [5] = none :=
  hmcpwrite_rejects_nonpositive [mkDimRec 4 2] 1
    ⟨[], 0, 0, fun _ => [0, 0], []⟩ 0 [5] (by decide)

/-- Boolean marker for the two allocation-side events of the claim:
ref allocation and chunk-table record append. -/
def allocEv : Ev → Bool
  | Ev.refAlloc _ => true
  | Ev.vsAppendRec => true
  | _ => false

/-- The chunk number the HMCPwrite loop body targets from the current
position (the calculate_chunk_num call at hchunks.c line 3252). -/
def writeTargetChunk (ddims : List DIM_REC) (nt_size : Nat)
    (st : WriteState) : Nat :=
  calculate_chunk_num
    ((update_chunk_indices_seek st.posn nt_size ddims).map Prod.fst) ddims

/-- C5 counterexample: a 1-byte write through a fresh handle to the
never-written chunk 0 performs only the in-memory tree insert before
the cache get; no ref allocation and no Chunk Directory Store append
occurs anywhere in the call (allocEv finds no such event), and the
inserted directory entry still carries the DFTAG_NULL placeholder tag
and ref 0 - so the write path does not perform the full directory
Insert (fresh tag/ref allocation plus directory-store append) before
calling cache.get, contrary to the claim. -/
theorem hmcpwrite_insert_counterexample :
    ∃ st1, HMCPwrite [mkDimRec 4 2] 1 ⟨[], 0, 0, fun _ => [0, 0], []⟩ 1 [5] =
        some (st1, 1) ∧
      st1.events = [Ev.treeInsert 0, Ev.cacheGet 1, Ev.cachePut true] ∧
      List.lookup 0 st1.dir =
        some { origin := [0], chk_tag := DFTAG_NULL, chk_ref := 0,
               chk_vnum := 0, chunk_number := 0 } ∧
      st1.events.all (fun e => !(allocEv e)) = true := by
  refine ⟨_, rfl, ?_, ?_, ?_⟩ <;> decide

/-- C5 (amended): when a stream write touches a chunk number with no
directory entry, the engine inserts an in-memory placeholder entry
(tag DFTAG_NULL, ref 0, vnum = num_recs++) into the index before
calling cache.get for that page, and returns the page to the cache
with the dirty flag set; the fresh storage tag/ref allocation and the
Chunk Directory Store record append are performed later, by the
page-out callback HMCPchunkwrite, when it first flushes a page whose
entry still has the placeholder tag. -/
theorem chunked_write_lazy_allocation :
    (∀ (ddims : List DIM_REC) (nt_size : Nat) (st : WriteState)
        (bptr : List Nat) (write_len bytes_written : Nat),
      List.lookup (writeTargetChunk ddims nt_size st) st.dir = none →
      (hmcpwrite_step ddims nt_size st bptr write_len
            bytes_written).1.events =
          st.events ++ [Ev.treeInsert (writeTargetChunk ddims nt_size st),
            Ev.cacheGet (writeTargetChunk ddims nt_size st + 1),
            Ev.cachePut true] ∧
        List.lookup (writeTargetChunk ddims nt_size st)
            (hmcpwrite_step ddims nt_size st bptr write_len
              bytes_written).1.dir =
          some { origin :=
                   (update_chunk_indices_seek st.posn nt_size ddims).map
                     Prod.fst,
                 chk_tag := DFTAG_NULL, chk_ref := 0,
                 chk_vnum := st.num_recs,
                 chunk_number := writeTargetChunk ddims nt_size st } ∧
        (hmcpwrite_step ddims nt_size st bptr write_len
            bytes_written).1.num_recs = st.num_recs + 1) ∧
    (∀ (dir : List (Nat × CHUNK_REC)) (newref cn write_len : Nat)
        (chk_rec : CHUNK_REC),
      List.lookup cn dir = some chk_rec →
      chk_rec.chk_tag = DFTAG_NULL → newref ≠ 0 →
      HMCPchunkwrite dir newref cn write_len =
        some (dir.map (fun p => if p.1 = cn then
                (cn,
                  { chk_rec with
                      chk_tag := DFTAG_CHUNK, chk_ref := newref })
              else p),
          [Ev.refAlloc DFTAG_CHUNK, Ev.vsAppendRec,
           Ev.storeWrite DFTAG_CHUNK newref], write_len)) := by
  constructor
  · intro ddims nt_size st bptr write_len bytes_written hnone
    unfold writeTargetChunk at hnone
    simp [hmcpwrite_step, write_dir_insert, hnone, writeTargetChunk,
      List.lookup]
  · intro dir newref cn write_len chk_rec hlook htag hnr
    simp only [HMCPchunkwrite, hlook]
    rw [if_pos htag, if_neg hnr]

/-- Witness for the amended C5 theorem at concrete inputs: a fresh
one-chunk-touching write bumps num_recs to 1, and a page-out of a
placeholder entry with fresh ref 7 allocates, appends and updates the
entry to (DFTAG_CHUNK, 7). -/
theorem chunked_write_lazy_allocation_witness :
    (hmcpwrite_step [mkDimRec 4 2] 1 ⟨[], 0, 0, fun _ => [0, 0], []⟩
        [5] 1 0).1.num_recs = 0 + 1 ∧
    HMCPchunkwrite [(0, (⟨[0], DFTAG_NULL, 0, 0, 0⟩ : CHUNK_REC))] 7 0 2 =
      some ([(0, (⟨[0], DFTAG_CHUNK, 7, 0, 0⟩ : CHUNK_REC))],
        [Ev.refAlloc DFTAG_CHUNK, Ev.vsAppendRec,
         Ev.storeWrite DFTAG_CHUNK 7], 2) := by
  constructor
  · exact (chunked_write_lazy_allocation.1 [mkDimRec 4 2] 1
      ⟨[], 0, 0, fun _ => [0, 0], []⟩ [5] 1 0 (by decide)).2.2
  · have h := chunked_write_lazy_allocation.2
      [(0, (⟨[0], DFTAG_NULL, 0, 0, 0⟩ : CHUNK_REC))] 7 0 2
      (⟨[0], DFTAG_NULL, 0, 0, 0⟩ : CHUNK_REC) (by decide) rfl (by decide)
    exact h.trans (by decide)

/-- The directory-affecting operations available on one open chunked
element: a stream/chunk write touching one chunk number (the lazy
insert logic shared by HMCPwrite and HMCwriteChunk via
write_dir_insert), a page-out flush (HMCPchunkwrite), a read touch
(HMCPread / HMCPchunkread, which never modify the directory), and a
seek (HMCPseek, likewise). -/
inductive DirOp where
  | writeTouch (cn : Nat) (origin : List Nat)
  | flush (cn : Nat) (newref : Nat)
  | readTouch (cn : Nat)
  | seekOp
deriving Repr, DecidableEq

/-- Effect of one operation on the (directory, num_recs) pair. -/
def applyDirOp (s : List (Nat × CHUNK_REC) × Nat) (op : DirOp) :
    List (Nat × CHUNK_REC) × Nat :=
  match op with
  | DirOp.writeTouch cn origin =>
    let r := write_dir_insert s.1 s.2 cn origin
    (r.1, r.2.1)
  | DirOp.flush cn newref =>
    match HMCPchunkwrite s.1 newref cn 0 with
    | some res => (res.1, s.2)
    | none => s
  | DirOp.readTouch _ => s
  | DirOp.seekOp => s

/-- Run of a whole operation sequence. -/
def runDirOps (s : List (Nat × CHUNK_REC) × Nat) (ops : List DirOp) :
    List (Nat × CHUNK_REC) × Nat :=
  ops.foldl applyDirOp s

/-- The set of chunk numbers ever written through the element by an
operation sequence. -/
def writtenSet : List DirOp → Finset Nat
  | [] => ∅
  | DirOp.writeTouch cn _ :: rest => insert cn (writtenSet rest)
  | _ :: rest => writtenSet rest

/-- The entry update performed by HMCPchunkwrite changes no keys: a
chunk number is present afterwards iff it was present before. -/
theorem lookup_map_update_isSome (dir : List (Nat × CHUNK_REC))
    (cn m : Nat) (r2 : CHUNK_REC) :
    (List.lookup m
        (dir.map (fun p => if p.1 = cn then (cn, r2) else p))).isSome
      = (List.lookup m dir).isSome := by
  induction dir with
  | nil => rfl
  | cons p rest ih =>
    obtain ⟨k, v⟩ := p
    rw [List.map_cons]
    by_cases hk : k = cn
    · subst hk
      rw [if_pos rfl]
      by_cases hm : m = k
      · subst hm
        simp [List.lookup]
      · have hbeq : (m == k) = false := by simpa using hm
        simp only [List.lookup, hbeq]
        exact ih
    · rw [if_neg (by simpa using hk)]
      by_cases hm : m = k
      · subst hm
        simp [List.lookup]
      · have hbeq : (m == k) = false := by simpa using hm
        simp only [List.lookup, hbeq]
        exact ih

/-- A successful page-out never inserts or removes directory
entries. -/
theorem HMCPchunkwrite_lookup_isSome (dir : List (Nat × CHUNK_REC))
    (newref cn write_len : Nat) (res : List (Nat × CHUNK_REC) × List Ev × Nat)
    (h : HMCPchunkwrite dir newref cn write_len = some res) (m : Nat) :
    (List.lookup m res.1).isSome = (List.lookup m dir).isSome := by
  unfold HMCPchunkwrite at h
  rcases hl : List.lookup cn dir with _ | chk_rec
  · simp only [hl] at h
    exact Option.noConfusion h
  · simp only [hl] at h
    by_cases ht : chk_rec.chk_tag = DFTAG_NULL
    · by_cases hn : newref = 0
      · simp only [if_pos ht, if_pos hn] at h
        exact Option.noConfusion h
      · simp only [if_pos ht, if_neg hn] at h
        obtain rfl : res = _ := (Option.some.inj h).symm
        exact lookup_map_update_isSome dir cn m _
    · simp only [if_neg ht] at h
      obtain rfl : res = _ := (Option.some.inj h).symm
      rfl

/-- A flush never changes num_recs and never changes which chunk
numbers are present. -/
theorem applyDirOp_flush_spec (dir : List (Nat × CHUNK_REC))
    (n cn newref : Nat) :
    (applyDirOp (dir, n) (DirOp.flush cn newref)).2 = n ∧
    (∀ m, (List.lookup m
        (applyDirOp (dir, n) (DirOp.flush cn newref)).1).isSome
      = (List.lookup m dir).isSome) := by
  unfold applyDirOp
  rcases hw : HMCPchunkwrite dir newref cn 0 with _ | res
  · constructor
    · simp only [hw]
    · intro m
      simp only [hw]
  · constructor
    · simp only [hw]
    · intro m
      simp only [hw]
      exact HMCPchunkwrite_lookup_isSome dir newref cn 0 res hw m

/-- num_recs never decreases across one operation, and every present
chunk number stays present. -/
theorem applyDirOp_mono (s : List (Nat × CHUNK_REC) × Nat) (op : DirOp) :
    s.2 ≤ (applyDirOp s op).2 ∧
    (∀ m, (List.lookup m s.1).isSome = true →
      (List.lookup m (applyDirOp s op).1).isSome = true) := by
  cases op with
  | writeTouch cn origin =>
    constructor
    · show s.2 ≤ (write_dir_insert s.1 s.2 cn origin).2.1
      unfold write_dir_insert
      rcases hl : List.lookup cn s.1 with _ | r
      · simp only [hl]
        exact Nat.le_succ s.2
      · simp only [hl]
        exact Nat.le_refl _
    · intro m hm
      show (List.lookup m (write_dir_insert s.1 s.2 cn origin).1).isSome = true
      unfold write_dir_insert
      rcases hl : List.lookup cn s.1 with _ | r
      · simp only [hl]
        by_cases hmc : m = cn
        · subst hmc
          simp [List.lookup]
        · have hbeq : (m == cn) = false := by simpa using hmc
          simp only [List.lookup, hbeq]
          exact hm
      · simp only [hl]
        exact hm
  | flush cn newref =>
    obtain ⟨h1, h2⟩ := applyDirOp_flush_spec s.1 s.2 cn newref
    exact ⟨Nat.le_of_eq h1.symm, fun m hm => (h2 m).trans hm⟩
  | readTouch m0 => exact ⟨Nat.le_refl _, fun m hm => hm⟩
  | seekOp => exact ⟨Nat.le_refl _, fun m hm => hm⟩

/-- Monotonicity over whole operation sequences. -/
theorem runDirOps_mono (ops : List DirOp) :
    ∀ s : List (Nat × CHUNK_REC) × Nat,
      s.2 ≤ (runDirOps s ops).2 ∧
      (∀ m, (List.lookup m s.1).isSome = true →
        (List.lookup m (runDirOps s ops).1).isSome = true) := by
  induction ops with
  | nil => exact fun s => ⟨Nat.le_refl _, fun m hm => hm⟩
  | cons op rest ih =>
    intro s
    obtain ⟨h1, h2⟩ := applyDirOp_mono s op
    obtain ⟨h3, h4⟩ := ih (applyDirOp s op)
    exact ⟨Nat.le_trans h1 h3, fun m hm => h4 m (h2 m hm)⟩

/-- Exact-count invariant: if num_recs equals the cardinality of the
present key set A, then after any operation sequence it equals the
cardinality of A joined with the written set. -/
theorem runDirOps_count (ops : List DirOp) :
    ∀ (dir : List (Nat × CHUNK_REC)) (n : Nat) (A : Finset Nat),
      (∀ m, (List.lookup m dir).isSome = true ↔ m ∈ A) →
      n = A.card →
      (runDirOps (dir, n) ops).2 = (A ∪ writtenSet ops).card := by
  induction ops with
  | nil =>
    intro dir n A _hinv hn
    show n = (A ∪ ∅).card
    rw [Finset.union_empty]
    exact hn
  | cons op rest ih =>
    intro dir n A hinv hn
    show (runDirOps (applyDirOp (dir, n) op) rest).2 = _
    cases op with
    | writeTouch cn origin =>
      rcases hl : List.lookup cn dir with _ | r
      · have hstep : applyDirOp (dir, n) (DirOp.writeTouch cn origin) =
            ((cn, (⟨origin, DFTAG_NULL, 0, n, cn⟩ : CHUNK_REC)) :: dir,
              n + 1) := by
          simp [applyDirOp, write_dir_insert, hl]
        rw [hstep]
        have hmemA : cn ∉ A := by
          intro hm
          have hs := (hinv cn).mpr hm
          rw [hl] at hs
          simp at hs
        have hinv2 : ∀ m,
            (List.lookup m ((cn, (⟨origin, DFTAG_NULL, 0, n, cn⟩ : CHUNK_REC))
              :: dir)).isSome = true ↔ m ∈ insert cn A := by
          intro m
          by_cases hmc : m = cn
          · subst hmc
            simp [List.lookup]
          · have hbeq : (m == cn) = false := by simpa using hmc
            simp only [List.lookup, hbeq, Finset.mem_insert]
            rw [hinv m]
            simp [hmc]
        have hcard : n + 1 = (insert cn A).card := by
          rw [Finset.card_insert_of_not_mem hmemA, hn]
        rw [ih _ _ _ hinv2 hcard]
        congr 1
        ext x
        simp only [Finset.mem_union, Finset.mem_insert, writtenSet]
        tauto
      · have hstep : applyDirOp (dir, n) (DirOp.writeTouch cn origin) =
            (dir, n) := by
          simp [applyDirOp, write_dir_insert, hl]
        rw [hstep, ih _ _ _ hinv hn]
        congr 1
        have hmem : cn ∈ A := (hinv cn).mp (by rw [hl]; rfl)
        ext x
        simp only [Finset.mem_union, Finset.mem_insert, writtenSet]
        constructor
        · tauto
        · rintro (h | h | h)
          · exact Or.inl h
          · subst h
            exact Or.inl hmem
          · exact Or.inr h
    | flush cn newref =>
      obtain ⟨h1, h2⟩ := applyDirOp_flush_spec dir n cn newref
      rcases hY : applyDirOp (dir, n) (DirOp.flush cn newref) with ⟨d2, n2⟩
      rw [hY] at h1 h2
      have h1b : n2 = n := h1
      rw [h1b]
      exact ih d2 n A (fun m => by
        have hm : (List.lookup m d2).isSome = (List.lookup m dir).isSome :=
          h2 m
        rw [hm]
        exact hinv m) hn
    | readTouch m0 => exact ih _ _ _ hinv hn
    | seekOp => exact ih _ _ _ hinv hn

/-- C7: across every operation sequence on one open chunked element,
num_recs never decreases, no directory entry is ever removed, and
starting from the freshly created element (empty directory, num_recs
0) num_recs equals exactly the number of distinct chunk numbers ever
written. -/
theorem chunk_directory_append_only
    (s0 : List (Nat × CHUNK_REC) × Nat) (ops : List DirOp) :
    s0.2 ≤ (runDirOps s0 ops).2 ∧
    (∀ m, (List.lookup m s0.1).isSome = true →
      (List.lookup m (runDirOps s0 ops).1).isSome = true) ∧
    (runDirOps ([], 0) ops).2 = (writtenSet ops).card := by
  refine ⟨(runDirOps_mono ops s0).1, (runDirOps_mono ops s0).2, ?_⟩
  have h := runDirOps_count ops [] 0 ∅ (by simp [List.lookup]) (by simp)
  rw [h, Finset.empty_union]

/-- Witness for C7 on a concrete sequence: repeated writes to chunk 3,
a flush of chunk 3 and a write to chunk 1 leave num_recs equal to the
2 distinct written chunks; a pre-existing entry (chunk 2) survives and
the record count never drops below its initial value 1. -/
theorem chunk_directory_append_only_witness :
    (1 : Nat) ≤ (runDirOps ([(2, (⟨[2], DFTAG_NULL, 0, 0, 2⟩ : CHUNK_REC))], 1)
        [DirOp.writeTouch 3 [1], DirOp.writeTouch 3 [1], DirOp.flush 3 5,
         DirOp.seekOp, DirOp.writeTouch 1 [0]]).2 ∧
    (List.lookup 2 (runDirOps ([(2, (⟨[2], DFTAG_NULL, 0, 0, 2⟩ : CHUNK_REC))], 1)
        [DirOp.writeTouch 3 [1], DirOp.writeTouch 3 [1], DirOp.flush 3 5,
         DirOp.seekOp, DirOp.writeTouch 1 [0]]).1).isSome = true ∧
    (runDirOps ([], 0)
        [DirOp.writeTouch 3 [1], DirOp.writeTouch 3 [1], DirOp.flush 3 5,
         DirOp.seekOp, DirOp.writeTouch 1 [0]]).2 =
      (writtenSet
        [DirOp.writeTouch 3 [1], DirOp.writeTouch 3 [1], DirOp.flush 3 5,
         DirOp.seekOp, DirOp.writeTouch 1 [0]]).card := by
  obtain ⟨h1, h2, h3⟩ := chunk_directory_append_only
    ([(2, (⟨[2], DFTAG_NULL, 0, 0, 2⟩ : CHUNK_REC))], 1)
    [DirOp.writeTouch 3 [1], DirOp.writeTouch 3 [1], DirOp.flush 3 5,
     DirOp.seekOp, DirOp.writeTouch 1 [0]]
  exact ⟨h1, h2 2 (by decide), h3⟩

/-- goDigits produces one (chunk index, in-chunk position) pair per
dimension. -/
theorem goDigits_fst_length (ddims : List DIM_REC) (e : Nat) :
    ((goDigits ddims e).1).length = ddims.length := by
  induction ddims generalizing e with
  | nil => rfl
  | cons d rest ih =>
    show ((goDigits rest e).1).length + 1 = rest.length + 1
    rw [ih]

/-- The last element of a nonempty list is a member. -/
theorem lastOf_mem {α : Type} (dflt : α) :
    ∀ l : List α, l ≠ [] → lastOf dflt l ∈ l
  | [], h => absurd rfl h
  | [a], _ => by simp [lastOf]
  | a :: b :: rest, _ => by
    show lastOf dflt (b :: rest) ∈ a :: b :: rest
    exact List.mem_cons_of_mem a (lastOf_mem dflt (b :: rest) (by simp))

/-- lastOf commutes with map on nonempty lists. -/
theorem lastOf_map {α β : Type} (f : α → β) (da : α) (db : β) :
    ∀ l : List α, l ≠ [] → lastOf db (l.map f) = f (lastOf da l)
  | [], h => absurd rfl h
  | [_a], _ => rfl
  | _a :: b :: rest, _ => lastOf_map f da db (b :: rest) (by simp)

/-- The pair goDigits produces for the fastest-varying (last) axis:
the loop body of update_chunk_indices_seek at i = ndims-1, where the
running quotient is still the full element index. -/
theorem goDigits_lastOf (e : Nat) :
    ∀ ddims : List DIM_REC, ddims ≠ [] →
      lastOf (0, 0) (goDigits ddims e).1 =
        ((e % (lastOf default ddims).dim_length) /
            (lastOf default ddims).chunk_length,
         (e % (lastOf default ddims).dim_length) %
            (lastOf default ddims).chunk_length)
  | [], h => absurd rfl h
  | [_d], _ => rfl
  | d :: d2 :: rest, _ => by
    have hlen : (goDigits (d2 :: rest) e).1.length = (d2 :: rest).length :=
      goDigits_fst_length (d2 :: rest) e
    obtain ⟨p, l, hpl⟩ : ∃ p l, (goDigits (d2 :: rest) e).1 = p :: l := by
      cases hgl : (goDigits (d2 :: rest) e).1 with
      | nil => rw [hgl] at hlen; simp at hlen
      | cons p l => exact ⟨p, l, rfl⟩
    show lastOf (0, 0)
        ((((goDigits (d2 :: rest) e).2 % d.dim_length) / d.chunk_length,
          ((goDigits (d2 :: rest) e).2 % d.dim_length) % d.chunk_length)
          :: (goDigits (d2 :: rest) e).1) = _
    rw [hpl]
    show lastOf (0, 0) (p :: l) = _
    rw [← hpl, goDigits_lastOf e (d2 :: rest) (by simp)]
    rfl

/-- Every in-chunk position goDigits produces is below the chunk
extent of its axis. -/
theorem goDigits_spb_lt (e : Nat) :
    ∀ ddims : List DIM_REC, (∀ d ∈ ddims, goodDim d) →
      List.Forall₂ (fun (pr : Nat × Nat) (d : DIM_REC) =>
        pr.2 < d.chunk_length) (goDigits ddims e).1 ddims
  | [], _ => List.Forall₂.nil
  | d :: rest, h => by
    have hc : 0 < d.chunk_length := (goodDim_facts d (h d (by simp))).2.1
    exact List.Forall₂.cons (Nat.mod_lt _ hc)
      (goDigits_spb_lt e rest (fun x hx => h x (by simp [hx])))

/-- Seek-in-chunk bound: the mixed-radix in-chunk offset plus the
room left along the fastest axis never exceeds the chunk element
count. -/
theorem chunkSeekAcc_last_bound {spb : List Nat} {ddims : List DIM_REC}
    (h : List.Forall₂ (fun s (d : DIM_REC) => s < d.chunk_length) spb ddims) :
    ddims ≠ [] →
    chunkSeekAcc spb ddims +
        ((lastOf default ddims).chunk_length - lastOf 0 spb) ≤
      prodChunkLens ddims := by
  induction h with
  | nil => intro hne; exact absurd rfl hne
  | @cons a b l1 l2 h1 h2 ih =>
    intro _
    cases l2 with
    | nil =>
      cases h2
      show a * prodChunkLens [] + chunkSeekAcc [] ([] : List DIM_REC) +
        (b.chunk_length - a) ≤ b.chunk_length * prodChunkLens []
      show a * 1 + 0 + (b.chunk_length - a) ≤ b.chunk_length * 1
      omega
    | cons d2 drest =>
      have hlen := h2.length_eq
      obtain ⟨s2, srest, rfl⟩ : ∃ s2 srest, l1 = s2 :: srest := by
        cases l1 with
        | nil => simp at hlen
        | cons s2 srest => exact ⟨s2, srest, rfl⟩
      have ihx := ih (by simp)
      show a * prodChunkLens (d2 :: drest) +
          chunkSeekAcc (s2 :: srest) (d2 :: drest) +
          ((lastOf default (d2 :: drest)).chunk_length -
            lastOf 0 (s2 :: srest)) ≤
        b.chunk_length * prodChunkLens (d2 :: drest)
      have hm1 : a * prodChunkLens (d2 :: drest) +
          prodChunkLens (d2 :: drest) =
          (a + 1) * prodChunkLens (d2 :: drest) :=
        (Nat.succ_mul a _).symm
      have hm2 : (a + 1) * prodChunkLens (d2 :: drest) ≤
          b.chunk_length * prodChunkLens (d2 :: drest) :=
        Nat.mul_le_mul_right _ h1
      omega

/-- Run-size facts: one pass of the contiguous-run computation moves
at least one byte (given a position strictly inside the effective
extent of the chunk along the fastest axis), never more than the bytes
still requested, and never more than the room left in the chunk along
the fastest axis. -/
theorem chunk_for_chunk_facts (nt_size read_len bytes_read sbiL spbL : Nat)
    (dL : DIM_REC) (hnt : 0 < nt_size) (hlt : bytes_read < read_len)
    (hspb : spbL < (if sbiL = dL.num_chunks - 1 then dL.last_chunk_length
        else dL.chunk_length))
    (hle : (if sbiL = dL.num_chunks - 1 then dL.last_chunk_length
        else dL.chunk_length) ≤ dL.chunk_length) :
    1 ≤ (calculate_chunk_for_chunk nt_size read_len bytes_read sbiL spbL
        dL).toNat ∧
    (calculate_chunk_for_chunk nt_size read_len bytes_read sbiL spbL
        dL).toNat ≤ read_len - bytes_read ∧
    (calculate_chunk_for_chunk nt_size read_len bytes_read sbiL spbL
        dL).toNat ≤ (dL.chunk_length - spbL) * nt_size := by
  unfold calculate_chunk_for_chunk
  have heff : (if sbiL = dL.num_chunks - 1 then (dL.last_chunk_length : Int)
      else (dL.chunk_length : Int)) =
      ((if sbiL = dL.num_chunks - 1 then dL.last_chunk_length
        else dL.chunk_length : Nat) : Int) :=
    (apply_ite (fun n : Nat => (n : Int)) _ _ _).symm
  rw [heff]
  generalize hE : (if sbiL = dL.num_chunks - 1 then dL.last_chunk_length
      else dL.chunk_length) = E at hspb hle
  have hspbE : spbL ≤ dL.chunk_length := Nat.le_of_lt (Nat.lt_of_lt_of_le hspb hle)
  have hcast : (((dL.chunk_length - spbL) * nt_size : Nat) : Int) =
      ((dL.chunk_length : Int) - (spbL : Int)) * (nt_size : Int) := by
    push_cast [Nat.cast_sub hspbE]
    ring
  have hmono : ((E : Int) - (spbL : Int)) * (nt_size : Int) ≤
      ((dL.chunk_length : Int) - (spbL : Int)) * (nt_size : Int) := by
    apply mul_le_mul_of_nonneg_right _ (by positivity)
    omega
  by_cases hc : ((E : Int) - (spbL : Int)) * (nt_size : Int) >
      (read_len : Int) - (bytes_read : Int)
  · rw [if_pos hc]
    refine ⟨by omega, by omega, ?_⟩
    omega
  · rw [if_neg hc]
    have hmul : (1 : Int) ≤ ((E : Int) - (spbL : Int)) * (nt_size : Int) := by
      have ha : (1 : Int) ≤ (E : Int) - (spbL : Int) := by omega
      have hb : (1 : Int) ≤ (nt_size : Int) := by exact_mod_cast hnt
      calc (1 : Int) = 1 * 1 := by ring
        _ ≤ ((E : Int) - (spbL : Int)) * (nt_size : Int) :=
          mul_le_mul ha hb (by norm_num) (by omega)
    push_neg at hc
    refine ⟨by omega, by omega, ?_⟩
    omega

/-- Per-iteration facts for the HMCPread / HMCPwrite loop body under a
valid geometry: the contiguous run is at least 1 byte, at most the
remaining request, and stays inside the page buffer (in-chunk seek
plus run size bounded by the chunk byte size). -/
theorem read_step_facts (ddims : List DIM_REC) (nt_size : Nat)
    (hgood : ∀ d ∈ ddims, goodDim d) (hne : ddims ≠ []) (hnt : 0 < nt_size)
    (read_len bytes_read posn : Nat) (hlt : bytes_read < read_len) :
    1 ≤ (calculate_chunk_for_chunk nt_size read_len bytes_read
        (lastOf (0, 0) (update_chunk_indices_seek posn nt_size ddims)).1
        (lastOf (0, 0) (update_chunk_indices_seek posn nt_size ddims)).2
        (lastOf default ddims)).toNat ∧
    (calculate_chunk_for_chunk nt_size read_len bytes_read
        (lastOf (0, 0) (update_chunk_indices_seek posn nt_size ddims)).1
        (lastOf (0, 0) (update_chunk_indices_seek posn nt_size ddims)).2
        (lastOf default ddims)).toNat ≤ read_len - bytes_read ∧
    calculate_seek_in_chunk
        ((update_chunk_indices_seek posn nt_size ddims).map Prod.snd)
        nt_size ddims +
      (calculate_chunk_for_chunk nt_size read_len bytes_read
        (lastOf (0, 0) (update_chunk_indices_seek posn nt_size ddims)).1
        (lastOf (0, 0) (update_chunk_indices_seek posn nt_size ddims)).2
        (lastOf default ddims)).toNat ≤ prodChunkLens ddims * nt_size := by
  have hdL : goodDim (lastOf default ddims) :=
    hgood _ (lastOf_mem default ddims hne)
  obtain ⟨hdim_pos, hcl_pos, _hnc_pos, _hlast_pos, hlast_le, _htile, _hbound⟩ :=
    goodDim_facts _ hdL
  have hpair : lastOf (0, 0) (update_chunk_indices_seek posn nt_size ddims) =
      ((posn / nt_size % (lastOf default ddims).dim_length) /
          (lastOf default ddims).chunk_length,
       (posn / nt_size % (lastOf default ddims).dim_length) %
          (lastOf default ddims).chunk_length) :=
    goDigits_lastOf (posn / nt_size) ddims hne
  have hx : posn / nt_size % (lastOf default ddims).dim_length <
      (lastOf default ddims).dim_length := Nat.mod_lt _ hdim_pos
  have hdig := (digit_decomp _ hdL _ hx).2.1
  have hEle : (if (posn / nt_size % (lastOf default ddims).dim_length) /
        (lastOf default ddims).chunk_length =
        (lastOf default ddims).num_chunks - 1 then
      (lastOf default ddims).last_chunk_length
    else (lastOf default ddims).chunk_length) ≤
      (lastOf default ddims).chunk_length := by
    split
    · exact hlast_le
    · exact Nat.le_refl _
  have hccf := chunk_for_chunk_facts nt_size read_len bytes_read
    ((posn / nt_size % (lastOf default ddims).dim_length) /
      (lastOf default ddims).chunk_length)
    ((posn / nt_size % (lastOf default ddims).dim_length) %
      (lastOf default ddims).chunk_length)
    (lastOf default ddims) hnt hlt hdig hEle
  rw [hpair]
  refine ⟨hccf.1, hccf.2.1, ?_⟩
  have hprs_ne : update_chunk_indices_seek posn nt_size ddims ≠ [] := by
    intro hb
    have hl2 := goDigits_fst_length ddims (posn / nt_size)
    have hb2 : (goDigits ddims (posn / nt_size)).1 = [] := hb
    rw [hb2] at hl2
    cases ddims with
    | nil => exact hne rfl
    | cons d rest => simp at hl2
  have hfa : List.Forall₂ (fun s (d : DIM_REC) => s < d.chunk_length)
      ((update_chunk_indices_seek posn nt_size ddims).map Prod.snd) ddims :=
    List.forall₂_map_left_iff.mpr
      (goDigits_spb_lt (posn / nt_size) ddims hgood)
  have hlast_map : lastOf 0
      ((update_chunk_indices_seek posn nt_size ddims).map Prod.snd) =
      (posn / nt_size % (lastOf default ddims).dim_length) %
        (lastOf default ddims).chunk_length := by
    rw [lastOf_map Prod.snd (0, 0) 0 _ hprs_ne, hpair]
  have hseek := chunkSeekAcc_last_bound hfa hne
  rw [hlast_map] at hseek
  show chunkSeekAcc
      ((update_chunk_indices_seek posn nt_size ddims).map Prod.snd) ddims *
      nt_size + _ ≤ prodChunkLens ddims * nt_size
  calc chunkSeekAcc
        ((update_chunk_indices_seek posn nt_size ddims).map Prod.snd) ddims *
        nt_size +
      (calculate_chunk_for_chunk nt_size read_len bytes_read
        ((posn / nt_size % (lastOf default ddims).dim_length) /
          (lastOf default ddims).chunk_length)
        ((posn / nt_size % (lastOf default ddims).dim_length) %
          (lastOf default ddims).chunk_length)
        (lastOf default ddims)).toNat
      ≤ chunkSeekAcc
          ((update_chunk_indices_seek posn nt_size ddims).map Prod.snd) ddims *
          nt_size +
        ((lastOf default ddims).chunk_length -
          (posn / nt_size % (lastOf default ddims).dim_length) %
            (lastOf default ddims).chunk_length) * nt_size :=
        Nat.add_le_add_left hccf.2.2 _
    _ = (chunkSeekAcc
          ((update_chunk_indices_seek posn nt_size ddims).map Prod.snd) ddims +
        ((lastOf default ddims).chunk_length -
          (posn / nt_size % (lastOf default ddims).dim_length) %
            (lastOf default ddims).chunk_length)) * nt_size :=
        (Nat.add_mul _ _ _).symm
    _ ≤ prodChunkLens ddims * nt_size := Nat.mul_le_mul_right _ hseek

/-- The chunk number the HMCPread loop body targets from the current
position (calculate_chunk_num call at hchunks.c line 2822). -/
def readTargetChunk (ddims : List DIM_REC) (nt_size posn : Nat) : Nat :=
  calculate_chunk_num
    ((update_chunk_indices_seek posn nt_size ddims).map Prod.fst) ddims

/-- The contiguous run size the HMCPread loop body computes
(calculate_chunk_for_chunk call at hchunks.c lines 2826-2827). -/
def readRunSize (ddims : List DIM_REC) (nt_size posn read_len bytes_read : Nat) :
    Nat :=
  (calculate_chunk_for_chunk nt_size read_len bytes_read
    (lastOf (0, 0) (update_chunk_indices_seek posn nt_size ddims)).1
    (lastOf (0, 0) (update_chunk_indices_seek posn nt_size ddims)).2
    (lastOf default ddims)).toNat

/-- The in-chunk byte position the HMCPread loop body computes
(calculate_seek_in_chunk call at hchunks.c line 2846). -/
def readSeekInChunk (ddims : List DIM_REC) (nt_size posn : Nat) : Nat :=
  calculate_seek_in_chunk
    ((update_chunk_indices_seek posn nt_size ddims).map Prod.snd)
    nt_size ddims

/-- The while loop of HMCPread (hchunks.c lines 2820-2873): on each
pass recompute the seek arrays from the current position, fetch the
target chunk's page from the cache, copy the contiguous run out of it
at the in-chunk position, put the page back clean, and advance.  The
cache is a total map from chunk number to page bytes (mcache_get never
failing abstracts a healthy cache).  Fuel makes the recursion
structural; none models the C loop spinning without progress. -/
def hmcpread_loop (ddims : List DIM_REC) (nt_size : Nat)
    (cache : Nat → List Nat) :
    Nat → Nat → Nat → Nat → List Nat → Option (Nat × Nat × List Nat)
  | 0, posn, bytes_read, read_len, acc =>
    if bytes_read < read_len then none else some (bytes_read, posn, acc)
  | fuel + 1, posn, bytes_read, read_len, acc =>
    if bytes_read < read_len then
      hmcpread_loop ddims nt_size cache fuel
        (posn + readRunSize ddims nt_size posn read_len bytes_read)
        (bytes_read + readRunSize ddims nt_size posn read_len bytes_read)
        read_len
        (acc ++ ((cache (readTargetChunk ddims nt_size posn)).drop
            (readSeekInChunk ddims nt_size posn)).take
            (readRunSize ddims nt_size posn read_len bytes_read))
    else some (bytes_read, posn, acc)

/-- The common tail of HMCPread after length validation (hchunks.c
lines 2808-2819): clamp the requested length so the transfer does not
run past the logical end, then run the copy loop from the current
position with zero bytes read. -/
def hmcpread_body (ddims : List DIM_REC) (nt_size : Nat)
    (cache : Nat → List Nat) (len_elts posn : Nat) (len1 : Int) :
    Option (Nat × Nat × List Nat) :=
  let L : Int := ((len_elts * nt_size : Nat) : Int)
  let len2 : Int := if (posn : Int) + len1 > L then L - (posn : Int) else len1
  hmcpread_loop ddims nt_size cache len2.toNat posn 0 len2.toNat []

/-- HMCPread (hchunks.c lines 2777-2882): a requested length of 0 is
replaced by logical-end minus position, a negative length fails with
DFE_RANGE, the length is clamped at the logical end, and the loop then
transfers the bytes.  len_elts is info->length (logical element
count), so the logical byte size is len_elts * nt_size.  Returns
(bytes_read, new position, bytes copied to the caller). -/
def HMCPread (ddims : List DIM_REC) (nt_size : Nat)
    (cache : Nat → List Nat) (len_elts posn : Nat) (length : Int) :
    Option (Nat × Nat × List Nat) :=
  if length = 0 then
    hmcpread_body ddims nt_size cache len_elts posn
      (((len_elts * nt_size : Nat) : Int) - (posn : Int))
  else if length < 0 then none
  else hmcpread_body ddims nt_size cache len_elts posn length

/-- The read loop transfers exactly the requested byte count when
given that much fuel, ending at position advanced by that count with a
result buffer of exactly that length. -/
theorem hmcpread_loop_complete (ddims : List DIM_REC) (nt_size : Nat)
    (cache : Nat → List Nat)
    (hgood : ∀ d ∈ ddims, goodDim d) (hne : ddims ≠ []) (hnt : 0 < nt_size)
    (hcache : ∀ cn, (cache cn).length = prodChunkLens ddims * nt_size) :
    ∀ (fuel read_len bytes_read posn : Nat) (acc : List Nat),
      bytes_read ≤ read_len → read_len - bytes_read ≤ fuel →
      ∃ buf2 : List Nat,
        hmcpread_loop ddims nt_size cache fuel posn bytes_read read_len acc =
          some (read_len, posn + (read_len - bytes_read), acc ++ buf2) ∧
        buf2.length = read_len - bytes_read := by
  intro fuel
  induction fuel with
  | zero =>
    intro read_len bytes_read posn acc hle hfuel
    have heq : bytes_read = read_len := by omega
    subst heq
    refine ⟨[], ?_, by simp⟩
    show (if bytes_read < bytes_read then none
        else some (bytes_read, posn, acc)) =
      some (bytes_read, posn + (bytes_read - bytes_read), acc ++ [])
    rw [if_neg (by omega)]
    simp
  | succ fuel ih =>
    intro read_len bytes_read posn acc hle hfuel
    by_cases hlt : bytes_read < read_len
    · obtain ⟨h1, h2, h3⟩ := read_step_facts ddims nt_size hgood hne hnt
        read_len bytes_read posn hlt
      have h1b : 1 ≤ readRunSize ddims nt_size posn read_len bytes_read := h1
      have h2b : readRunSize ddims nt_size posn read_len bytes_read ≤
          read_len - bytes_read := h2
      have h3b : readSeekInChunk ddims nt_size posn +
          readRunSize ddims nt_size posn read_len bytes_read ≤
          prodChunkLens ddims * nt_size := h3
      have hpiece : (((cache (readTargetChunk ddims nt_size posn)).drop
          (readSeekInChunk ddims nt_size posn)).take
          (readRunSize ddims nt_size posn read_len bytes_read)).length =
          readRunSize ddims nt_size posn read_len bytes_read := by
        rw [List.length_take, List.length_drop, hcache]
        omega
      obtain ⟨buf2, hrec, hlen⟩ := ih read_len
        (bytes_read + readRunSize ddims nt_size posn read_len bytes_read)
        (posn + readRunSize ddims nt_size posn read_len bytes_read)
        (acc ++ ((cache (readTargetChunk ddims nt_size posn)).drop
            (readSeekInChunk ddims nt_size posn)).take
            (readRunSize ddims nt_size posn read_len bytes_read))
        (by omega) (by omega)
      refine ⟨((cache (readTargetChunk ddims nt_size posn)).drop
            (readSeekInChunk ddims nt_size posn)).take
            (readRunSize ddims nt_size posn read_len bytes_read) ++ buf2,
        ?_, ?_⟩
      · show (if bytes_read < read_len then
            hmcpread_loop ddims nt_size cache fuel
              (posn + readRunSize ddims nt_size posn read_len bytes_read)
              (bytes_read + readRunSize ddims nt_size posn read_len bytes_read)
              read_len
              (acc ++ ((cache (readTargetChunk ddims nt_size posn)).drop
                  (readSeekInChunk ddims nt_size posn)).take
                  (readRunSize ddims nt_size posn read_len bytes_read))
          else some (bytes_read, posn, acc)) = _
        rw [if_pos hlt, hrec, List.append_assoc]
        have hpos : posn + readRunSize ddims nt_size posn read_len bytes_read +
            (read_len -
              (bytes_read + readRunSize ddims nt_size posn read_len
                bytes_read)) = posn + (read_len - bytes_read) := by
          omega
        rw [hpos]
      · rw [List.length_append, hpiece, hlen]
        omega
    · have heq : bytes_read = read_len := by omega
      subst heq
      refine ⟨[], ?_, by simp⟩
      show (if bytes_read < bytes_read then
          hmcpread_loop ddims nt_size cache fuel
            (posn + readRunSize ddims nt_size posn bytes_read bytes_read)
            (bytes_read + readRunSize ddims nt_size posn bytes_read bytes_read)
            bytes_read
            (acc ++ ((cache (readTargetChunk ddims nt_size posn)).drop
                (readSeekInChunk ddims nt_size posn)).take
                (readRunSize ddims nt_size posn bytes_read bytes_read))
        else some (bytes_read, posn, acc)) =
        some (bytes_read, posn + (bytes_read - bytes_read), acc ++ [])
      rw [if_neg (by omega)]
      simp

/-- The clamped transfer count of one hmcpread_body run. -/
def hmcpreadBodyLen (len_elts nt_size posn : Nat) (len1 : Int) : Nat :=
  (if (posn : Int) + len1 > ((len_elts * nt_size : Nat) : Int) then
    ((len_elts * nt_size : Nat) : Int) - (posn : Int)
  else len1).toNat

/-- hmcpread_body always succeeds, transferring exactly the clamped
count. -/
theorem hmcpread_body_spec (ddims : List DIM_REC) (nt_size : Nat)
    (cache : Nat → List Nat) (len_elts posn : Nat)
    (hgood : ∀ d ∈ ddims, goodDim d) (hne : ddims ≠ []) (hnt : 0 < nt_size)
    (hcache : ∀ cn, (cache cn).length = prodChunkLens ddims * nt_size)
    (len1 : Int) :
    ∃ buf : List Nat,
      hmcpread_body ddims nt_size cache len_elts posn len1 =
        some (hmcpreadBodyLen len_elts nt_size posn len1,
          posn + hmcpreadBodyLen len_elts nt_size posn len1, buf) ∧
      buf.length = hmcpreadBodyLen len_elts nt_size posn len1 := by
  obtain ⟨buf2, heq, hlen⟩ := hmcpread_loop_complete ddims nt_size cache
    hgood hne hnt hcache (hmcpreadBodyLen len_elts nt_size posn len1)
    (hmcpreadBodyLen len_elts nt_size posn len1) 0 posn []
    (Nat.zero_le _) (by omega)
  refine ⟨buf2, ?_, by rw [hlen]; omega⟩
  show hmcpread_loop ddims nt_size cache
      (hmcpreadBodyLen len_elts nt_size posn len1) posn 0
      (hmcpreadBodyLen len_elts nt_size posn len1) [] = _
  rw [heq]
  have hz : hmcpreadBodyLen len_elts nt_size posn len1 - 0 =
      hmcpreadBodyLen len_elts nt_size posn len1 := by omega
  rw [hz]
  rfl

/-- The effective transfer count of a read request: length 0 reads to
the logical end; a positive length is clamped at the logical end. -/
def effectiveReadLen (len_elts nt_size posn : Nat) (length : Int) : Nat :=
  if length = 0 then len_elts * nt_size - posn
  else min length.toNat (len_elts * nt_size - posn)

/-- C8: for a read on an open chunked element with valid geometry and
position at most the logical byte size: a negative requested length
fails with DFE_RANGE; otherwise the call succeeds, a requested length
of 0 reads from the current position to the logical end, a length
running past the logical end is clamped so at most logical_size -
position bytes move, and the returned count equals the number of bytes
actually transferred into the caller's buffer. -/
theorem hmcpread_semantics (ddims : List DIM_REC) (nt_size : Nat)
    (cache : Nat → List Nat) (len_elts posn : Nat)
    (hgood : ∀ d ∈ ddims, goodDim d) (hne : ddims ≠ []) (hnt : 0 < nt_size)
    (hcache : ∀ cn, (cache cn).length = prodChunkLens ddims * nt_size)
    (hposn : posn ≤ len_elts * nt_size) (length : Int) :
    (length < 0 → HMCPread ddims nt_size cache len_elts posn length = none) ∧
    (0 ≤ length →
      ∃ buf : List Nat,
        HMCPread ddims nt_size cache len_elts posn length =
          some (effectiveReadLen len_elts nt_size posn length,
            posn + effectiveReadLen len_elts nt_size posn length, buf) ∧
        buf.length = effectiveReadLen len_elts nt_size posn length) := by
  constructor
  · intro hneg
    unfold HMCPread
    rw [if_neg (by omega), if_pos hneg]
  · intro hge
    by_cases h0 : length = 0
    · subst h0
      obtain ⟨buf, heq, hlen⟩ := hmcpread_body_spec ddims nt_size cache
        len_elts posn hgood hne hnt hcache
        (((len_elts * nt_size : Nat) : Int) - (posn : Int))
      have hE : hmcpreadBodyLen len_elts nt_size posn
          (((len_elts * nt_size : Nat) : Int) - (posn : Int)) =
          effectiveReadLen len_elts nt_size posn 0 := by
        unfold hmcpreadBodyLen effectiveReadLen
        rw [if_neg (by omega), if_pos rfl]
        omega
      rw [hE] at heq hlen
      refine ⟨buf, ?_, hlen⟩
      show hmcpread_body ddims nt_size cache len_elts posn
          (((len_elts * nt_size : Nat) : Int) - (posn : Int)) = _
      exact heq
    · obtain ⟨buf, heq, hlen⟩ := hmcpread_body_spec ddims nt_size cache
        len_elts posn hgood hne hnt hcache length
      have hE : hmcpreadBodyLen len_elts nt_size posn length =
          effectiveReadLen len_elts nt_size posn length := by
        unfold hmcpreadBodyLen effectiveReadLen
        rw [if_neg h0]
        by_cases hclamp : (posn : Int) + length >
            ((len_elts * nt_size : Nat) : Int)
        · rw [if_pos hclamp]
          omega
        · rw [if_neg hclamp]
          omega
      rw [hE] at heq hlen
      refine ⟨buf, ?_, hlen⟩
      show HMCPread ddims nt_size cache len_elts posn length = _
      unfold HMCPread
      rw [if_neg h0, if_neg (by omega)]
      exact heq

/-- Witness for C8: a length-0 read at position 1 of a 1-D element of
4 one-byte elements (chunk size 2) reads the 3 bytes to the logical
end and lands at position 4. -/
theorem hmcpread_semantics_witness :
    ∃ buf : List Nat,
      HMCPread [mkDimRec 4 2] 1 (fun _ => [1, 2]) 4 1 0 =
        some (3, 4, buf) ∧ buf.length = 3 := by
  have h := (hmcpread_semantics [mkDimRec 4 2] 1 (fun _ => [1, 2]) 4 1
    (by decide) (by decide) (by decide) (fun _ => rfl) (by decide) 0).2
    (by decide)
  have he : effectiveReadLen 4 1 1 0 = 3 := by decide
  rw [he] at h
  simpa using h
